import Mathlib

/-!
# Verification of the noisemeter-device DSP core

Shallow embedding of `src/noisemeter-device/spl-meter.cpp` (`SPLMeter::readMicrophoneData`,
`MIC_CONVERT`) and `src/noisemeter-device/timestamp.h` (`Timestamp::valid`).

Modelling conventions:
* C `float` values are modelled as real numbers; IEEE special values are modelled
  explicitly: a float result is an `Option EReal`, where `none` models NaN and
  `some ⊥` / `some ⊤` model -inf / +inf.  `sqrtf` of a negative argument is NaN,
  `log10f 0 = -inf`, `log10f` of a negative argument is NaN; any comparison with
  NaN is false.  Floating-point rounding is idealised away (the claims under
  verification concern formulas, clamping and the accumulator state machine,
  not rounding error).
* Constants that `spl-meter.cpp` defines are fixed below (`MIC_BITS = 24`,
  `MIC_OFFSET_DB = 0`, `MIC_REF_DB = 94`, `LEQ_PERIOD = 1`).  Constants that the
  translation unit only *references* — `SAMPLE_RATE`, `SAMPLE_BITS`,
  `MIC_OVERLOAD_DB`, `MIC_NOISE_DB` come from headers not present in the
  repository snapshot — are modelled from the spec (§6 "Calibration
  configuration") as fields of an `SPLConfig` record, so every theorem
  quantifies over them.
* The two IIR filter invocations (`MIC_EQUALIZER.filter`, `WEIGHTING.filter`)
  are an external capability per spec §1/§4.1; their coefficient tables are in a
  header not present in the repository.  Modelled from the spec: a processed
  block is abstracted by the two sums of squares the filters return
  (`sum_sqr_SPL`, `sum_sqr_weighted`, each a non-negative real per the §4.1
  contract) together with its sample count `N`.
-/

namespace NoiseMeter

/-- `#define MIC_BITS 24` — valid number of bits in I2S data (spl-meter.cpp). -/
def MIC_BITS : Nat := 24

/-- Calibration configuration (spec §6).  Fields mirror the C macros; the last
three live in headers missing from the snapshot and are therefore parameters. -/
structure SPLConfig where
  /-- `MIC_OFFSET_DB` (0 in spl-meter.cpp, kept symbolic for generality). -/
  micOffsetDb : ℝ
  /-- `MIC_REF_DB` (94 in spl-meter.cpp). -/
  micRefDb : ℝ
  /-- `MIC_REF_AMPL = 10^(MIC_SENSITIVITY/20) * ((1 << (MIC_BITS-1)) - 1)`. -/
  micRefAmpl : ℝ
  /-- `MIC_OVERLOAD_DB` — declared in a header not in the snapshot. -/
  micOverloadDb : ℝ
  /-- `MIC_NOISE_DB` — declared in a header not in the snapshot. -/
  micNoiseDb : ℝ
  /-- `SAMPLE_RATE` — declared in a header not in the snapshot. -/
  sampleRate : Nat
  /-- `LEQ_PERIOD` (1 second in spl-meter.cpp, kept symbolic). -/
  leqPeriod : Nat

/-- `SAMPLES_LEQ = SAMPLE_RATE * LEQ_PERIOD`: the emission window in samples. -/
def SPLConfig.windowSamples (cfg : SPLConfig) : Nat :=
  cfg.sampleRate * cfg.leqPeriod

/-- A C `float` value: `none` is NaN, `some ⊥`/`some ⊤` are -inf/+inf,
`some (x : ℝ)` a finite value. -/
abbrev FVal := Option EReal

/-- IEEE `sqrtf` on a (finite real) argument: NaN for a negative argument,
otherwise the real square root. -/
noncomputable def ieeeSqrt (x : ℝ) : Option ℝ :=
  if x < 0 then none else some (Real.sqrt x)

/-- IEEE `log10f` on a (finite real) argument: NaN for a negative argument,
-inf at `0`, otherwise the real base-10 logarithm. -/
noncomputable def ieeeLog10 (x : ℝ) : FVal :=
  if x < 0 then none
  else if x = 0 then some ⊥
  else some ((Real.logb 10 x : ℝ) : EReal)

/-- The dB conversion used twice in `readMicrophoneData`:
`MIC_OFFSET_DB + MIC_REF_DB + 20 * log10(rms / MIC_REF_AMPL)`. -/
noncomputable def splDb (cfg : SPLConfig) (rms : ℝ) : FVal :=
  (ieeeLog10 (rms / cfg.micRefAmpl)).map
    fun l => ((cfg.micOffsetDb + cfg.micRefDb : ℝ) : EReal) + ((20 : ℝ) : EReal) * l

/-- `sqrt(sum / n)` fed into the dB conversion — the shape shared by
`short_SPL_dB` (with `sum_sqr_SPL`, `samples.size()`) and the emitted
`Leq` value (with `Leq_sum_sqr`, `Leq_samples`). -/
noncomputable def dbOfSum (cfg : SPLConfig) (sum : ℝ) (n : Nat) : FVal :=
  match ieeeSqrt (sum / (n : ℝ)) with
  | none => none
  | some rms => splDb cfg rms

/-- `short_SPL_dB`: the short-block dB computed from the equalizer's
(pre-weighting) sum of squares `sum_sqr_SPL` over `N` samples. -/
noncomputable def shortBlockDb (cfg : SPLConfig) (sumSqrSPL : ℝ) (N : Nat) : FVal :=
  dbOfSum cfg sumSqrSPL N

/-- The overload branch guard `short_SPL_dB > MIC_OVERLOAD_DB`.  A NaN
(`none`) compares false. -/
def overloadFires (cfg : SPLConfig) (d : FVal) : Prop :=
  ∃ x, d = some x ∧ (cfg.micOverloadDb : EReal) < x

/-- The noise-floor branch guard `isnan(short_SPL_dB) || short_SPL_dB < MIC_NOISE_DB`. -/
def noiseFires (cfg : SPLConfig) (d : FVal) : Prop :=
  d = none ∨ ∃ x, d = some x ∧ x < (cfg.micNoiseDb : EReal)

/-- The clamp policy applied to `Leq_sum_sqr` before accumulation:
```
if (short_SPL_dB > MIC_OVERLOAD_DB)           Leq_sum_sqr = MIC_OVERLOAD_DB;
else if (isnan(..) || (.. < MIC_NOISE_DB))    Leq_sum_sqr = MIC_NOISE_DB;
```
A NaN dB never takes the first branch (NaN comparisons are false) and always
takes the second, so the NaN case is matched first. -/
noncomputable def clampedSum (cfg : SPLConfig) (d : FVal) (oldSum : ℝ) : ℝ :=
  match d with
  | none => cfg.micNoiseDb
  | some x =>
    if (cfg.micOverloadDb : EReal) < x then cfg.micOverloadDb
    else if x < (cfg.micNoiseDb : EReal) then cfg.micNoiseDb
    else oldSum

/-- `Leq_sum_sqr` right after `Leq_sum_sqr += sum_sqr_weighted`: the clamped
previous sum plus the current block's weighted sum of squares. -/
noncomputable def accumSum (cfg : SPLConfig) (sumSqrSPL sumSqrWeighted : ℝ)
    (N : Nat) (oldSum : ℝ) : ℝ :=
  clampedSum cfg (shortBlockDb cfg sumSqrSPL N) oldSum + sumSqrWeighted

/-- The persistent accumulator state: `Leq_sum_sqr` and `Leq_samples`. -/
structure LeqState where
  sum : ℝ
  samples : Nat

/-- Initial accumulator state (spec §4.3: sum = 0, count = 0). -/
def initState : LeqState := ⟨0, 0⟩

/-- `SPLMeter::readMicrophoneData`, one call on one processed block.
The block is abstracted by the filter results `sumSqrSPL` (`sum_sqr_SPL`),
`sumSqrWeighted` (`sum_sqr_weighted`) and its sample count `N`
(`samples.size()`).  After the clamp and the accumulation
(`accumSum`, `Leq_samples += N`), the emission check
`Leq_samples >= SAMPLE_RATE * LEQ_PERIOD` either resets both state fields to
zero and returns the Leq dB computed from the accumulated sum and count, or
stores the accumulated values and returns nothing. -/
noncomputable def readMicrophoneData (cfg : SPLConfig) (sumSqrSPL sumSqrWeighted : ℝ)
    (N : Nat) (st : LeqState) : LeqState × Option FVal :=
  if cfg.windowSamples ≤ st.samples + N then
    (⟨0, 0⟩, some (dbOfSum cfg (accumSum cfg sumSqrSPL sumSqrWeighted N st.sum)
      (st.samples + N)))
  else
    (⟨accumSum cfg sumSqrSPL sumSqrWeighted N st.sum, st.samples + N⟩, none)

/-- One processed block, abstracted by its two filter sums and its length. -/
structure Block where
  sumSqrSPL : ℝ
  sumSqrWeighted : ℝ
  n : Nat

/-- The sequence of per-call results over a sequence of blocks. -/
noncomputable def runOutputs (cfg : SPLConfig) : LeqState → List Block → List (Option FVal)
  | _, [] => []
  | st, b :: bs =>
    (readMicrophoneData cfg b.sumSqrSPL b.sumSqrWeighted b.n st).2 ::
      runOutputs cfg (readMicrophoneData cfg b.sumSqrSPL b.sumSqrWeighted b.n st).1 bs

/-- The accumulator state after a sequence of blocks. -/
noncomputable def runState (cfg : SPLConfig) : LeqState → List Block → LeqState
  | st, [] => st
  | st, b :: bs =>
    runState cfg (readMicrophoneData cfg b.sumSqrSPL b.sumSqrWeighted b.n st).1 bs

/-- Spec-side emission schedule ("returns a value iff the cumulative sample
count since the last emission reaches the window threshold", spec §8): given
the window threshold, the count accumulated since the last emission and the
sizes of the remaining blocks, the expected emit/no-emit flag of each call.
This definition follows the spec's words, to be compared with the code. -/
def specEmissionSchedule (thr : Nat) : Nat → List Nat → List Bool
  | _, [] => []
  | c, n :: ns =>
    if thr ≤ c + n then true :: specEmissionSchedule thr 0 ns
    else false :: specEmissionSchedule thr (c + n) ns

/-- `MIC_CONVERT(s) = (s >> (SAMPLE_BITS - MIC_BITS))` on a signed sample;
C's `>>` on a negative signed integer is the arithmetic (sign-extending)
shift, which is exactly `Int.shiftRight`.  `SAMPLE_BITS` comes from a header
not in the snapshot and is a parameter. -/
def MIC_CONVERT (sampleBits : Nat) (s : ℤ) : ℤ :=
  Int.shiftRight s (sampleBits - MIC_BITS)

/-- The conversion loop `for (auto& s : samples) s.f = MIC_CONVERT(s.i);`,
elementwise over the raw block. -/
def convertBlock (sampleBits : Nat) (raw : List ℤ) : List ℤ :=
  raw.map (MIC_CONVERT sampleBits)

namespace Timestamp

/-- `Timestamp::valid()` from timestamp.h: `return tm >= 8 * 3600 * 2;`
(`tm` is the stored `std::time_t`, seconds since the epoch). -/
def valid (tm : ℤ) : Bool :=
  decide ((8 * 3600 * 2 : ℤ) ≤ tm)

end Timestamp

/-! ### Concrete configurations used by witnesses and counterexamples -/

/-- A trivial calibration (offset 0, refDb 0, unit reference amplitude) with a
one-sample window; used to exercise the clamp branches concretely. -/
noncomputable def cfgUnit : SPLConfig :=
  { micOffsetDb := 0, micRefDb := 0, micRefAmpl := 1
    micOverloadDb := 1, micNoiseDb := 0, sampleRate := 1, leqPeriod := 1 }

/-- A calibration with the datasheet-style thresholds (noise floor 30 dB,
overload 120 dB) and a one-sample window. -/
noncomputable def cfgThresh : SPLConfig :=
  { micOffsetDb := 0, micRefDb := 0, micRefAmpl := 1
    micOverloadDb := 120, micNoiseDb := 30, sampleRate := 1, leqPeriod := 1 }

/-- The configuration of spec §8's scenario: 48 kHz sample rate, 1 s window. -/
noncomputable def cfg48k : SPLConfig :=
  { micOffsetDb := 0, micRefDb := 94, micRefAmpl := 1
    micOverloadDb := 120, micNoiseDb := 30, sampleRate := 48000, leqPeriod := 1 }

/-! ## Helper lemmas -/

/-- Unfolding `readMicrophoneData` in the emitting case. -/
theorem readMicrophoneData_of_le {cfg : SPLConfig} {e w : ℝ} {N : Nat} {st : LeqState}
    (h : cfg.windowSamples ≤ st.samples + N) :
    readMicrophoneData cfg e w N st =
      (⟨0, 0⟩, some (dbOfSum cfg (accumSum cfg e w N st.sum) (st.samples + N))) := by
  simp [readMicrophoneData, h]

/-- Unfolding `readMicrophoneData` in the non-emitting case. -/
theorem readMicrophoneData_of_lt {cfg : SPLConfig} {e w : ℝ} {N : Nat} {st : LeqState}
    (h : st.samples + N < cfg.windowSamples) :
    readMicrophoneData cfg e w N st =
      (⟨accumSum cfg e w N st.sum, st.samples + N⟩, none) := by
  simp [readMicrophoneData, Nat.not_le.mpr h]

/-- dB conversion of a strictly positive RMS with a positive reference
amplitude: the finite-real formula of spec §4.2 step 4. -/
theorem splDb_of_pos {cfg : SPLConfig} {rms : ℝ}
    (ha : 0 < cfg.micRefAmpl) (hr : 0 < rms) :
    splDb cfg rms =
      some ((cfg.micOffsetDb + cfg.micRefDb +
        20 * Real.logb 10 (rms / cfg.micRefAmpl) : ℝ) : EReal) := by
  have hq : 0 < rms / cfg.micRefAmpl := div_pos hr ha
  rw [splDb, ieeeLog10, if_neg (not_lt.mpr hq.le), if_neg hq.ne.symm]
  simp only [Option.map_some', ← EReal.coe_mul, ← EReal.coe_add]

/-- dB conversion of a zero RMS: `log10f 0 = -inf`, so the result is `-inf`. -/
theorem splDb_zero (cfg : SPLConfig) : splDb cfg 0 = some ⊥ := by
  rw [splDb, ieeeLog10, zero_div, if_neg (lt_irrefl 0), if_pos rfl]
  simp [EReal.coe_mul_bot_of_pos (by norm_num : (0:ℝ) < 20), EReal.add_bot]

/-- `dbOfSum` on a zero sum of squares is `-inf` (never NaN). -/
theorem dbOfSum_zero (cfg : SPLConfig) (n : Nat) : dbOfSum cfg 0 n = some ⊥ := by
  rw [dbOfSum, ieeeSqrt, zero_div, if_neg (lt_irrefl 0), Real.sqrt_zero]
  exact splDb_zero cfg

/-- `dbOfSum` on a positive sum over a positive count: the finite formula. -/
theorem dbOfSum_of_pos {cfg : SPLConfig} {sum : ℝ} {n : Nat}
    (ha : 0 < cfg.micRefAmpl) (hs : 0 < sum) (hn : 0 < n) :
    dbOfSum cfg sum n =
      some ((cfg.micOffsetDb + cfg.micRefDb +
        20 * Real.logb 10 (Real.sqrt (sum / (n : ℝ)) / cfg.micRefAmpl) : ℝ) : EReal) := by
  have hq : 0 < sum / (n : ℝ) := div_pos hs (by exact_mod_cast hn)
  rw [dbOfSum, ieeeSqrt, if_neg (not_lt.mpr hq.le)]
  exact splDb_of_pos ha (Real.sqrt_pos.mpr hq)

/-- `dbOfSum` on a non-negative sum is never NaN and never `+inf`; on a
positive sum over a positive count it is a finite real. -/
theorem dbOfSum_cases (cfg : SPLConfig) (n : Nat) {sum : ℝ}
    (ha : 0 < cfg.micRefAmpl) (hs : 0 ≤ sum) :
    (dbOfSum cfg sum n = some ⊥ ∨ ∃ r : ℝ, dbOfSum cfg sum n = some (r : EReal)) ∧
    (0 < sum → 0 < n → ∃ r : ℝ, dbOfSum cfg sum n = some (r : EReal)) := by
  constructor
  · rcases eq_or_lt_of_le hs with h0 | hpos
    · rcases Nat.eq_zero_or_pos n with hn | hn
      · left
        subst hn
        rw [dbOfSum, ieeeSqrt]
        norm_num
        exact splDb_zero cfg
      · left
        rw [← h0, dbOfSum_zero]
    · rcases Nat.eq_zero_or_pos n with hn | hn
      · left
        subst hn
        rw [dbOfSum, ieeeSqrt]
        norm_num
        exact splDb_zero cfg
      · right
        exact ⟨_, dbOfSum_of_pos ha hpos hn⟩
  · intro h1 h2
    exact ⟨_, dbOfSum_of_pos ha h1 h2⟩

/-- The clamp result when the overload guard fires. -/
theorem clampedSum_of_overload {cfg : SPLConfig} {d : FVal} {s : ℝ}
    (h : overloadFires cfg d) : clampedSum cfg d s = cfg.micOverloadDb := by
  obtain ⟨x, rfl, hx⟩ := h
  simp [clampedSum, hx]

/-- The clamp result when the overload guard does not fire but the
NaN/noise-floor guard does. -/
theorem clampedSum_of_noise {cfg : SPLConfig} {d : FVal} {s : ℝ}
    (hno : ¬ overloadFires cfg d) (h : noiseFires cfg d) :
    clampedSum cfg d s = cfg.micNoiseDb := by
  rcases h with h | ⟨x, rfl, hx⟩
  · subst h
    rfl
  · have hov : ¬ (cfg.micOverloadDb : EReal) < x := fun hc => hno ⟨x, rfl, hc⟩
    simp [clampedSum, hov, hx]

/-- The clamp leaves the sum unchanged when neither guard fires. -/
theorem clampedSum_of_none {cfg : SPLConfig} {d : FVal} {s : ℝ}
    (hno : ¬ overloadFires cfg d) (hnn : ¬ noiseFires cfg d) :
    clampedSum cfg d s = s := by
  match d with
  | none => exact absurd (Or.inl rfl) hnn
  | some x =>
    have hov : ¬ (cfg.micOverloadDb : EReal) < x := fun hc => hno ⟨x, rfl, hc⟩
    have hlt : ¬ x < (cfg.micNoiseDb : EReal) := fun hc => hnn (Or.inr ⟨x, rfl, hc⟩)
    simp [clampedSum, hov, hlt]

/-- The clamped sum is non-negative whenever the thresholds and the previous
sum are. -/
theorem clampedSum_nonneg {cfg : SPLConfig} {d : FVal} {s : ℝ}
    (hov : 0 ≤ cfg.micOverloadDb) (hnn : 0 ≤ cfg.micNoiseDb) (hs : 0 ≤ s) :
    0 ≤ clampedSum cfg d s := by
  match d with
  | none => exact hnn
  | some x =>
    rw [clampedSum]
    split
    · exact hov
    · split
      · exact hnn
      · exact hs

/-! ## Claim theorems -/

/-- **C10.** `Timestamp::valid()` returns true iff the stored time is at least
`8 * 3600 * 2 = 57600` seconds past the epoch; in particular any near-epoch
time (below 57600 s) is reported invalid. -/
theorem timestamp_valid_iff (tm : ℤ) :
    (Timestamp.valid tm = true ↔ (57600 : ℤ) ≤ tm) ∧
    (Timestamp.valid tm = false ↔ tm < (57600 : ℤ)) := by
  constructor
  · rw [Timestamp.valid, decide_eq_true_iff]
    norm_num
  · rw [Timestamp.valid, decide_eq_false_iff_not, not_le]
    norm_num

/-- `Int.shiftRight` (C's arithmetic `>>` on a signed value) is floor
division by the corresponding power of two. -/
theorem shiftRight_eq_fdiv (s : ℤ) (k : Nat) :
    Int.shiftRight s k = Int.fdiv s (2 ^ k) := by
  have hpow : ((2 : ℤ) ^ k) = ((2 ^ k : Nat) : ℤ) := by push_cast; ring
  rw [Int.fdiv_eq_ediv _ (by positivity)]
  have hed : ∀ m j : Nat, Int.ediv (m : ℤ) ((j : Nat) : ℤ) = ((m / j : Nat) : ℤ) :=
    fun m j => rfl
  match s with
  | Int.ofNat n =>
    rw [Int.shiftRight, Nat.shiftRight_eq_div_pow, hpow]
    exact (hed n (2 ^ k)).symm
  | Int.negSucc n =>
    rw [Int.shiftRight, Nat.shiftRight_eq_div_pow, hpow,
      Int.negSucc_ediv n (by exact_mod_cast Nat.pos_pow_of_pos k (by norm_num)),
      Int.negSucc_eq, hed]

/-- **C8.** The raw-sample conversion `MIC_CONVERT(s) = s >> (SAMPLE_BITS - MIC_BITS)`
is the sign-preserving floor division by `2 ^ (SAMPLE_BITS - MIC_BITS)`,
applied elementwise to every sample of the block before filtering. -/
theorem mic_convert_is_floor_div (sampleBits : Nat) (raw : List ℤ) (s : ℤ) :
    convertBlock sampleBits raw =
      raw.map (fun x => Int.fdiv x (2 ^ (sampleBits - MIC_BITS))) ∧
    MIC_CONVERT sampleBits s = Int.fdiv s (2 ^ (sampleBits - MIC_BITS)) ∧
    (MIC_CONVERT sampleBits s < 0 ↔ s < 0) := by
  refine ⟨?_, shiftRight_eq_fdiv s _, ?_⟩
  · rw [convertBlock]
    exact List.map_congr_left fun x _ => shiftRight_eq_fdiv x _
  · rw [MIC_CONVERT]
    match s with
    | Int.ofNat n =>
      rw [Int.shiftRight]
      simp [Int.ofNat_nonneg, not_lt.mpr (Int.ofNat_nonneg n),
        not_lt.mpr (Int.ofNat_nonneg (n >>> (sampleBits - MIC_BITS)))]
    | Int.negSucc n =>
      rw [Int.shiftRight]
      simp [Int.negSucc_lt_zero]

/-- The emit/no-emit pattern of a run depends only on the block sizes and the
starting count, and matches the spec-side schedule. -/
theorem runOutputs_isSome_eq (cfg : SPLConfig) :
    ∀ (bs : List Block) (c : Nat) (s : ℝ),
      (runOutputs cfg ⟨s, c⟩ bs).map Option.isSome =
        specEmissionSchedule cfg.windowSamples c (bs.map Block.n) := by
  intro bs
  induction bs with
  | nil => intro c s; rfl
  | cons b bs ih =>
    intro c s
    by_cases h : cfg.windowSamples ≤ c + b.n
    · rw [runOutputs, readMicrophoneData_of_le h]
      rw [List.map, List.map, specEmissionSchedule, if_pos h]
      exact congrArg (true :: ·) (ih 0 0)
    · rw [runOutputs, readMicrophoneData_of_lt (Nat.not_le.mp h)]
      rw [List.map, List.map, specEmissionSchedule, if_neg h]
      exact congrArg (false :: ·) (ih (c + b.n) _)

/-- **C1.** Over every sequence of processed blocks, a call to
`readMicrophoneData` returns a dB value exactly when the cumulative sample
count since the last emission reaches the window threshold
`SAMPLE_RATE * LEQ_PERIOD`: the code's emission pattern coincides with the
spec-side schedule `specEmissionSchedule` (one `true` per threshold
crossing, `false` everywhere else). -/
theorem processBlock_emits_iff_window (cfg : SPLConfig) (bs : List Block) :
    (runOutputs cfg initState bs).map Option.isSome =
      specEmissionSchedule cfg.windowSamples 0 (bs.map Block.n) :=
  runOutputs_isSome_eq cfg bs 0 0

/-- The sample count of every state reachable from a state below the window
threshold stays below the window threshold. -/
theorem runState_samples_lt (cfg : SPLConfig) (hw : 0 < cfg.windowSamples) :
    ∀ (bs : List Block) (st : LeqState), st.samples < cfg.windowSamples →
      (runState cfg st bs).samples < cfg.windowSamples := by
  intro bs
  induction bs with
  | nil => intro st h; exact h
  | cons b bs ih =>
    intro st h
    rw [runState]
    by_cases hb : cfg.windowSamples ≤ st.samples + b.n
    · rw [readMicrophoneData_of_le hb]
      exact ih _ hw
    · rw [readMicrophoneData_of_lt (Nat.not_le.mp hb)]
      exact ih _ (Nat.not_le.mp hb)

/-- **C5.** The Leq accumulator invariant: every state reachable from the
initial state has a sample count strictly below the window size (so the
count is `< window_size_samples` immediately before each new block is
added), and any call whose accumulated count reaches or exceeds the window
size resets both the count and the running sum to 0 — in the same call,
which is exactly the call that emits a value. -/
theorem leq_accumulator_invariant (cfg : SPLConfig) (hw : 0 < cfg.windowSamples)
    (bs : List Block) (e w : ℝ) (N : Nat) (st : LeqState)
    (hreach : cfg.windowSamples ≤ st.samples + N) :
    (runState cfg initState bs).samples < cfg.windowSamples ∧
    (readMicrophoneData cfg e w N st).1 = initState ∧
    (readMicrophoneData cfg e w N st).2.isSome = true := by
  refine ⟨runState_samples_lt cfg hw bs initState hw, ?_, ?_⟩
  · rw [readMicrophoneData_of_le hreach]
    rfl
  · rw [readMicrophoneData_of_le hreach]
    rfl

/-- Witness for C5 at the spec's 48 kHz configuration: the empty run keeps
the count below the window, and a call whose count reaches 48000 emits and
resets the state. -/
theorem leq_accumulator_invariant_witness :
    (runState cfg48k initState []).samples < cfg48k.windowSamples ∧
    (readMicrophoneData cfg48k 0 0 48000 initState).1 = initState ∧
    (readMicrophoneData cfg48k 0 0 48000 initState).2.isSome = true :=
  leq_accumulator_invariant cfg48k (by norm_num [cfg48k, SPLConfig.windowSamples])
    [] 0 0 48000 initState (by norm_num [cfg48k, SPLConfig.windowSamples, initState])

/-- **C7.** Spec §8 scenario: at 48000 Hz with a 1 s window and 1000-sample
blocks, each emission cycle is exactly 48 calls: the first 47 return no
value and the 48th returns a value. -/
theorem scenario_48_blocks (bs : List Block) (hlen : bs.length = 48)
    (hN : ∀ b ∈ bs, b.n = 1000) :
    (runOutputs cfg48k initState bs).map Option.isSome =
      List.replicate 47 false ++ [true] := by
  have hmap : bs.map Block.n = List.replicate 48 1000 := by
    rw [List.eq_replicate_iff]
    exact ⟨by simpa using hlen, by simpa using hN⟩
  rw [show initState = ⟨0, 0⟩ from rfl, runOutputs_isSome_eq, hmap,
    show cfg48k.windowSamples = 48000 from rfl]
  decide

/-- Witness for C7: 48 concrete all-zero 1000-sample blocks. -/
theorem scenario_48_blocks_witness :
    (runOutputs cfg48k initState (List.replicate 48 ⟨0, 0, 1000⟩)).map Option.isSome =
      List.replicate 47 false ++ [true] :=
  scenario_48_blocks (List.replicate 48 ⟨0, 0, 1000⟩) (by simp)
    (fun b hb => by rw [List.eq_of_mem_replicate hb])

/-! ## Concrete evaluations used by counterexamples and witnesses -/

theorem sqrt_ten_thousand : Real.sqrt 10000 = 100 := by
  rw [show (10000 : ℝ) = 100 ^ 2 by norm_num, Real.sqrt_sq (by norm_num : (0:ℝ) ≤ 100)]

theorem sqrt_four : Real.sqrt 4 = 2 := by
  rw [show (4 : ℝ) = 2 ^ 2 by norm_num, Real.sqrt_sq (by norm_num : (0:ℝ) ≤ 2)]

theorem logb_hundred : Real.logb 10 100 = 2 := by
  rw [show (100 : ℝ) = 10 ^ (2 : Nat) by norm_num, Real.logb_pow,
    Real.logb_self_eq_one (by norm_num : (1:ℝ) < 10)]
  norm_num

/-- A one-sample block with equalized sum of squares 10000 reads 40 dB under
a unit reference amplitude and zero offsets. -/
theorem dbOfSum_eval_forty {cfg : SPLConfig} (hA : cfg.micRefAmpl = 1)
    (hO : cfg.micOffsetDb = 0) (hR : cfg.micRefDb = 0) :
    dbOfSum cfg 10000 1 = some ((40 : ℝ) : EReal) := by
  rw [dbOfSum_of_pos (by rw [hA]; norm_num) (by norm_num) Nat.one_pos, hA, hO, hR]
  norm_num [sqrt_ten_thousand, logb_hundred]

theorem dbOfSum_cfgUnit_four :
    dbOfSum cfgUnit 4 1 = some ((20 * Real.logb 10 2 : ℝ) : EReal) := by
  rw [dbOfSum_of_pos (by norm_num [cfgUnit]) (by norm_num) Nat.one_pos]
  norm_num [cfgUnit, sqrt_four]

/-- A one-sample block with equalized sum of squares 1 reads 0 dB under a
unit reference amplitude and zero offsets. -/
theorem dbOfSum_eval_zero {cfg : SPLConfig} (hA : cfg.micRefAmpl = 1)
    (hO : cfg.micOffsetDb = 0) (hR : cfg.micRefDb = 0) :
    dbOfSum cfg 1 1 = some ((0 : ℝ) : EReal) := by
  rw [dbOfSum_of_pos (by rw [hA]; norm_num) (by norm_num) Nat.one_pos, hA, hO, hR]
  norm_num [Real.sqrt_one]

/-- **C2 counterexample.** At the unit calibration with overload threshold 1,
the one-sample block with equalized sum 10000 (short dB = 40 > 1) fires the
overload clamp, yet the Leq emitted by that very call is
`20·log10 2` (computed from `MIC_OVERLOAD_DB + sum_sqr_weighted = 1 + 3 = 4`),
not the value computed from the overload threshold's sum-of-squares basis
alone (which would be 0 dB): the current block's weighted sum is still added
on top of the sentinel, so the emission does not equal the threshold basis. -/
theorem clamp_monotonicity_cex :
    overloadFires cfgUnit (shortBlockDb cfgUnit 10000 1) ∧
    (readMicrophoneData cfgUnit 10000 3 1 initState).2 =
      some (some ((20 * Real.logb 10 2 : ℝ) : EReal)) ∧
    dbOfSum cfgUnit cfgUnit.micOverloadDb 1 = some ((0 : ℝ) : EReal) ∧
    (some ((20 * Real.logb 10 2 : ℝ) : EReal) : FVal) ≠ some ((0 : ℝ) : EReal) := by
  have h40 : shortBlockDb cfgUnit 10000 1 = some ((40 : ℝ) : EReal) :=
    dbOfSum_eval_forty rfl rfl rfl
  have hov : overloadFires cfgUnit (shortBlockDb cfgUnit 10000 1) :=
    ⟨((40 : ℝ) : EReal), h40, by
      show ((1 : ℝ) : EReal) < ((40 : ℝ) : EReal)
      exact EReal.coe_lt_coe_iff.mpr (by norm_num)⟩
  refine ⟨hov, ?_, ?_, ?_⟩
  · rw [readMicrophoneData_of_le (by decide)]
    refine congrArg some ?_
    show dbOfSum cfgUnit (accumSum cfgUnit 10000 3 1 initState.sum) 1 = _
    rw [accumSum, clampedSum_of_overload hov,
      show cfgUnit.micOverloadDb + 3 = (4 : ℝ) by norm_num [cfgUnit]]
    exact dbOfSum_cfgUnit_four
  · exact dbOfSum_eval_zero rfl rfl rfl
  · have h2 : (0 : ℝ) < Real.logb 10 2 :=
      Real.logb_pos (by norm_num) (by norm_num)
    simp only [ne_eq, Option.some_inj, EReal.coe_eq_coe_iff]
    nlinarith

/-- **C2 amended.** When a block's short dB exceeds the overload threshold,
the clamp discards all prior accumulation of the window: the accumulated sum
becomes exactly `MIC_OVERLOAD_DB + sum_sqr_weighted` (independent of the
previous running sum), and the call then proceeds with that sum — emitting
the Leq computed from it when the window is full, storing it otherwise.  The
next emitted Leq is therefore based on the overload sentinel plus the
weighted sums of the overloading block and of any later blocks of the
window, not on the sentinel alone. -/
theorem clamp_overload_dominates (cfg : SPLConfig) (e w : ℝ) (N : Nat)
    (st : LeqState) (h : overloadFires cfg (shortBlockDb cfg e N)) :
    accumSum cfg e w N st.sum = cfg.micOverloadDb + w ∧
    readMicrophoneData cfg e w N st =
      (if cfg.windowSamples ≤ st.samples + N then
        (initState, some (dbOfSum cfg (cfg.micOverloadDb + w) (st.samples + N)))
       else (⟨cfg.micOverloadDb + w, st.samples + N⟩, none)) := by
  have hacc : accumSum cfg e w N st.sum = cfg.micOverloadDb + w := by
    rw [accumSum, clampedSum_of_overload h]
  refine ⟨hacc, ?_⟩
  by_cases hc : cfg.windowSamples ≤ st.samples + N
  · rw [readMicrophoneData_of_le hc, if_pos hc, hacc]
    rfl
  · rw [readMicrophoneData_of_lt (Nat.not_le.mp hc), if_neg hc, hacc]

/-- Witness for the amended C2 at the unit calibration: the overloading
block drives the sum to `1 + 3 = 4` regardless of any prior sum. -/
theorem clamp_overload_dominates_witness :
    accumSum cfgUnit 10000 3 1 initState.sum = cfgUnit.micOverloadDb + 3 ∧
    readMicrophoneData cfgUnit 10000 3 1 initState =
      (if cfgUnit.windowSamples ≤ initState.samples + 1 then
        (initState, some (dbOfSum cfgUnit (cfgUnit.micOverloadDb + 3) (initState.samples + 1)))
       else (⟨cfgUnit.micOverloadDb + 3, initState.samples + 1⟩, none)) :=
  clamp_overload_dominates cfgUnit 10000 3 1 initState
    ⟨((40 : ℝ) : EReal), dbOfSum_eval_forty rfl rfl rfl, by
      show ((1 : ℝ) : EReal) < ((40 : ℝ) : EReal)
      exact EReal.coe_lt_coe_iff.mpr (by norm_num)⟩

/-- A silent (all-zero) block has short dB `-inf`, which does not fire the
overload guard but fires the NaN/noise-floor guard. -/
theorem silent_block_guards (cfg : SPLConfig) (N : Nat) :
    shortBlockDb cfg 0 N = some ⊥ ∧
    ¬ overloadFires cfg (shortBlockDb cfg 0 N) ∧
    noiseFires cfg (shortBlockDb cfg 0 N) := by
  have hdb : shortBlockDb cfg 0 N = some ⊥ := dbOfSum_zero cfg N
  refine ⟨hdb, ?_, Or.inr ⟨⊥, hdb, EReal.bot_lt_coe _⟩⟩
  rintro ⟨x, hx, hlt⟩
  rw [hdb] at hx
  obtain rfl : (⊥ : EReal) = x := Option.some_inj.mp hx
  exact absurd hlt (not_lt_bot)

/-- **C3.** For every block whose short dB is NaN or strictly below the
noise floor (`noiseFires`), the running sum is forced to the noise-floor
sentinel `MIC_NOISE_DB` before the block's weighted sum is added, so the
accumulated sum becomes `MIC_NOISE_DB + sum_sqr_weighted`; in particular an
all-zero (silent) block has short dB `-inf` (not NaN), is so forced, and if
its call emits, the emitted Leq is the finite real computed from the
noise-floor sentinel — neither NaN nor `-inf`.  The ordering hypothesis
`MIC_NOISE_DB ≤ MIC_OVERLOAD_DB` is the calibrated ordering of the two
bounds; with it the overload guard, which the code checks first, cannot fire
on such a block. -/
theorem silent_block_floors_at_noise (cfg : SPLConfig) (e w : ℝ) (N : Nat)
    (st : LeqState) (hord : cfg.micNoiseDb ≤ cfg.micOverloadDb)
    (hfire : noiseFires cfg (shortBlockDb cfg e N))
    (hn : 0 < cfg.micNoiseDb) (ha : 0 < cfg.micRefAmpl)
    (hw : 0 < cfg.windowSamples) :
    clampedSum cfg (shortBlockDb cfg e N) st.sum = cfg.micNoiseDb ∧
    accumSum cfg e w N st.sum = cfg.micNoiseDb + w ∧
    shortBlockDb cfg 0 N = some ⊥ ∧
    clampedSum cfg (shortBlockDb cfg 0 N) st.sum = cfg.micNoiseDb ∧
    (cfg.windowSamples ≤ st.samples + N →
      (readMicrophoneData cfg 0 0 N st).2 =
        some (some ((cfg.micOffsetDb + cfg.micRefDb +
          20 * Real.logb 10 (Real.sqrt (cfg.micNoiseDb / ((st.samples + N : Nat) : ℝ)) /
            cfg.micRefAmpl) : ℝ) : EReal))) := by
  have hno : ¬ overloadFires cfg (shortBlockDb cfg e N) := by
    rintro ⟨x, hx, hlt⟩
    rcases hfire with hnan | ⟨y, hy, hylt⟩
    · rw [hnan] at hx
      exact Option.noConfusion hx
    · rw [hy] at hx
      obtain rfl : y = x := Option.some_inj.mp hx
      exact absurd hlt (lt_asymm (hylt.trans_le (EReal.coe_le_coe_iff.mpr hord)))
  have hcl : clampedSum cfg (shortBlockDb cfg e N) st.sum = cfg.micNoiseDb :=
    clampedSum_of_noise hno hfire
  obtain ⟨hdb0, hno0, hnf0⟩ := silent_block_guards cfg N
  have hcl0 : clampedSum cfg (shortBlockDb cfg 0 N) st.sum = cfg.micNoiseDb :=
    clampedSum_of_noise hno0 hnf0
  refine ⟨hcl, by rw [accumSum, hcl], hdb0, hcl0, fun hc => ?_⟩
  rw [readMicrophoneData_of_le hc]
  refine congrArg some ?_
  have hacc : accumSum cfg 0 0 N st.sum = cfg.micNoiseDb := by
    rw [accumSum, hcl0, add_zero]
  rw [hacc]
  exact dbOfSum_of_pos ha hn (lt_of_lt_of_le hw hc)

/-- Witness for C3 at the datasheet-style calibration (noise floor 30 dB):
a nonzero one-sample block reading 0 dB (below the floor, not NaN, not
silent) is forced to the sentinel before its weighted sum 7 is added, and a
silent block filling the one-sample window emits the finite sentinel-based
value. -/
theorem silent_block_floors_at_noise_witness :
    clampedSum cfgThresh (shortBlockDb cfgThresh 1 1) initState.sum = cfgThresh.micNoiseDb ∧
    accumSum cfgThresh 1 7 1 initState.sum = cfgThresh.micNoiseDb + 7 ∧
    shortBlockDb cfgThresh 0 1 = some ⊥ ∧
    clampedSum cfgThresh (shortBlockDb cfgThresh 0 1) initState.sum = cfgThresh.micNoiseDb ∧
    (readMicrophoneData cfgThresh 0 0 1 initState).2 =
      some (some ((cfgThresh.micOffsetDb + cfgThresh.micRefDb +
        20 * Real.logb 10 (Real.sqrt (cfgThresh.micNoiseDb / ((initState.samples + 1 : Nat) : ℝ)) /
          cfgThresh.micRefAmpl) : ℝ) : EReal)) := by
  have h0 : shortBlockDb cfgThresh 1 1 = some ((0 : ℝ) : EReal) :=
    dbOfSum_eval_zero rfl rfl rfl
  have hfire : noiseFires cfgThresh (shortBlockDb cfgThresh 1 1) :=
    Or.inr ⟨((0 : ℝ) : EReal), h0, by
      show ((0 : ℝ) : EReal) < ((30 : ℝ) : EReal)
      exact EReal.coe_lt_coe_iff.mpr (by norm_num)⟩
  have h := silent_block_floors_at_noise cfgThresh 1 7 1 initState
    (by norm_num [cfgThresh]) hfire (by norm_num [cfgThresh])
    (by norm_num [cfgThresh]) (by decide)
  exact ⟨h.1, h.2.1, h.2.2.1, h.2.2.2.1, h.2.2.2.2 (by decide)⟩

/-- **C9.** On every call in which a clamp fires, the running sum after the
accumulation step equals the sentinel threshold plus the current block's
weighted sum of squares, independently of the previous running sum: the
clamp discards only prior accumulation, while the current block's weighted
contribution and its `N`-sample count increment are still applied before the
emission check. -/
theorem clamp_discards_only_prior (cfg : SPLConfig) (e w : ℝ) (N : Nat)
    (st : LeqState)
    (h : overloadFires cfg (shortBlockDb cfg e N) ∨ noiseFires cfg (shortBlockDb cfg e N)) :
    (overloadFires cfg (shortBlockDb cfg e N) →
      accumSum cfg e w N st.sum = cfg.micOverloadDb + w) ∧
    (¬ overloadFires cfg (shortBlockDb cfg e N) →
      accumSum cfg e w N st.sum = cfg.micNoiseDb + w) ∧
    readMicrophoneData cfg e w N st =
      (if cfg.windowSamples ≤ st.samples + N then
        (initState, some (dbOfSum cfg (accumSum cfg e w N st.sum) (st.samples + N)))
       else (⟨accumSum cfg e w N st.sum, st.samples + N⟩, none)) := by
  refine ⟨fun hov => by rw [accumSum, clampedSum_of_overload hov],
    fun hno => by rw [accumSum, clampedSum_of_noise hno (h.resolve_left hno)], ?_⟩
  by_cases hc : cfg.windowSamples ≤ st.samples + N
  · rw [readMicrophoneData_of_le hc, if_pos hc]
    rfl
  · rw [readMicrophoneData_of_lt (Nat.not_le.mp hc), if_neg hc]

/-- Witness for C9: a silent one-sample block with weighted sum 5 at the
unit calibration drives the accumulated sum to `MIC_NOISE_DB + 5`. -/
theorem clamp_discards_only_prior_witness :
    accumSum cfgUnit 0 5 1 initState.sum = cfgUnit.micNoiseDb + 5 ∧
    readMicrophoneData cfgUnit 0 5 1 initState =
      (if cfgUnit.windowSamples ≤ initState.samples + 1 then
        (initState, some (dbOfSum cfgUnit (accumSum cfgUnit 0 5 1 initState.sum)
          (initState.samples + 1)))
       else (⟨accumSum cfgUnit 0 5 1 initState.sum, initState.samples + 1⟩, none)) := by
  obtain ⟨hdb, hno, hnf⟩ := silent_block_guards cfgUnit 1
  have h := clamp_discards_only_prior cfgUnit 0 5 1 initState (Or.inr hnf)
  exact ⟨h.2.1 hno, h.2.2⟩

/-- **C4.** For a processed block of `N` samples with positive equalized sum
of squares, the short-block dB is
`MIC_OFFSET_DB + MIC_REF_DB + 20·log10(sqrt(sum_sqr_SPL / N) / MIC_REF_AMPL)`
— computed from the equalizer's (pre-weighting) sum of squares — while the
value added to the Leq running sum is the weighting filter's sum of squares
`sum_sqr_weighted`, and the sample count grows by exactly `N`. -/
theorem short_db_formula_and_accumulation (cfg : SPLConfig) (e w : ℝ) (N : Nat)
    (st : LeqState) (he : 0 < e) (hN : 0 < N) (ha : 0 < cfg.micRefAmpl) :
    shortBlockDb cfg e N =
      some ((cfg.micOffsetDb + cfg.micRefDb +
        20 * Real.logb 10 (Real.sqrt (e / (N : ℝ)) / cfg.micRefAmpl) : ℝ) : EReal) ∧
    readMicrophoneData cfg e w N st =
      (if cfg.windowSamples ≤ st.samples + N then
        (initState, some (dbOfSum cfg
          (clampedSum cfg (shortBlockDb cfg e N) st.sum + w) (st.samples + N)))
       else
        (⟨clampedSum cfg (shortBlockDb cfg e N) st.sum + w, st.samples + N⟩, none)) := by
  refine ⟨dbOfSum_of_pos ha he hN, ?_⟩
  by_cases hc : cfg.windowSamples ≤ st.samples + N
  · rw [readMicrophoneData_of_le hc, if_pos hc, accumSum]
    rfl
  · rw [readMicrophoneData_of_lt (Nat.not_le.mp hc), if_neg hc, accumSum]

/-- Witness for C4 at the 48 kHz calibration: a one-sample unit block far
from the window boundary (the call does not emit, and the stored state is
the clamped sum plus the weighted sum with the count grown by 1). -/
theorem short_db_formula_and_accumulation_witness :
    shortBlockDb cfg48k 1 1 =
      some ((cfg48k.micOffsetDb + cfg48k.micRefDb +
        20 * Real.logb 10 (Real.sqrt (1 / ((1 : Nat) : ℝ)) / cfg48k.micRefAmpl) : ℝ) : EReal) ∧
    readMicrophoneData cfg48k 1 0 1 initState =
      (if cfg48k.windowSamples ≤ initState.samples + 1 then
        (initState, some (dbOfSum cfg48k
          (clampedSum cfg48k (shortBlockDb cfg48k 1 1) initState.sum + 0)
          (initState.samples + 1)))
       else
        (⟨clampedSum cfg48k (shortBlockDb cfg48k 1 1) initState.sum + 0,
          initState.samples + 1⟩, none)) :=
  short_db_formula_and_accumulation cfg48k 1 0 1 initState
    (by norm_num) Nat.one_pos (by norm_num [cfg48k])

/-- **C6 counterexample.** With datasheet-style thresholds (noise 30,
overload 120), a one-sample window and a block whose equalized sum reads
40 dB (so neither clamp fires) but whose weighted sum of squares is 0, the
emitted Leq is `-inf` — an emitted value that is not finite.  (The filter
contract of spec §4.1 only guarantees non-negative sums of squares; the two
sums come from different filters, so a zero weighted sum with an in-range
equalized dB satisfies it.) -/
theorem emitted_finite_cex :
    (readMicrophoneData cfgThresh 10000 0 1 initState).2 = some (some (⊥ : EReal)) := by
  have h40 : shortBlockDb cfgThresh 10000 1 = some ((40 : ℝ) : EReal) :=
    dbOfSum_eval_forty rfl rfl rfl
  have hno : ¬ overloadFires cfgThresh (shortBlockDb cfgThresh 10000 1) := by
    rintro ⟨x, hx, hlt⟩
    rw [h40] at hx
    obtain rfl : ((40 : ℝ) : EReal) = x := Option.some_inj.mp hx
    rw [show cfgThresh.micOverloadDb = (120 : ℝ) from rfl] at hlt
    exact absurd (EReal.coe_lt_coe_iff.mp hlt) (by norm_num)
  have hnn : ¬ noiseFires cfgThresh (shortBlockDb cfgThresh 10000 1) := by
    rintro (hnan | ⟨x, hx, hlt⟩)
    · rw [h40] at hnan
      exact Option.noConfusion hnan
    · rw [h40] at hx
      obtain rfl : ((40 : ℝ) : EReal) = x := Option.some_inj.mp hx
      rw [show cfgThresh.micNoiseDb = (30 : ℝ) from rfl] at hlt
      exact absurd (EReal.coe_lt_coe_iff.mp hlt) (by norm_num)
  rw [readMicrophoneData_of_le (by decide)]
  refine congrArg some ?_
  show dbOfSum cfgThresh (accumSum cfgThresh 10000 0 1 initState.sum) 1 = _
  rw [accumSum, clampedSum_of_none hno hnn, show initState.sum + 0 = (0 : ℝ) by simp [initState]]
  exact dbOfSum_zero cfgThresh 1

/-- **C6 amended.** Whenever a measurement is emitted, the returned dB value
is never NaN and never `+inf`; it is moreover finite (a real) whenever the
window's accumulated sum of squares is positive — which holds as soon as any
clamp fired during the window (the thresholds being positive) or any block
contributed a positive weighted sum — but an emission from an accumulated
sum of exactly zero yields `-inf`. -/
theorem emitted_value_never_nan (cfg : SPLConfig) (e w : ℝ) (N : Nat)
    (st : LeqState) (d : FVal)
    (ha : 0 < cfg.micRefAmpl) (hs : 0 ≤ st.sum) (hw : 0 ≤ w)
    (hnn : 0 ≤ cfg.micNoiseDb) (hov : 0 ≤ cfg.micOverloadDb)
    (hthr : 0 < cfg.windowSamples)
    (hd : (readMicrophoneData cfg e w N st).2 = some d) :
    d ≠ none ∧ d ≠ some ⊤ ∧
    (0 < accumSum cfg e w N st.sum → ∃ r : ℝ, d = some ((r : ℝ) : EReal)) := by
  by_cases hc : cfg.windowSamples ≤ st.samples + N
  · rw [readMicrophoneData_of_le hc] at hd
    obtain rfl : dbOfSum cfg (accumSum cfg e w N st.sum) (st.samples + N) = d :=
      Option.some_inj.mp hd
    have hA : 0 ≤ accumSum cfg e w N st.sum :=
      add_nonneg (clampedSum_nonneg hov hnn hs) hw
    obtain ⟨hcase, hfin⟩ := dbOfSum_cases cfg (st.samples + N) ha hA
    refine ⟨?_, ?_, fun hpos => hfin hpos (lt_of_lt_of_le hthr hc)⟩
    · rcases hcase with hbot | ⟨r, hr⟩
      · rw [hbot]
        exact Option.noConfusion
      · rw [hr]
        exact Option.noConfusion
    · rcases hcase with hbot | ⟨r, hr⟩
      · rw [hbot]
        intro hcontra
        exact absurd (Option.some_inj.mp hcontra) bot_ne_top
      · rw [hr]
        intro hcontra
        exact absurd (Option.some_inj.mp hcontra) (EReal.coe_ne_top r)
  · rw [readMicrophoneData_of_lt (Nat.not_le.mp hc)] at hd
    exact absurd hd (by simp)

/-- Witness for the amended C6: a silent one-sample block with weighted sum 1
at the datasheet-style calibration emits a finite, non-NaN value. -/
theorem emitted_value_never_nan_witness :
    dbOfSum cfgThresh (accumSum cfgThresh 0 1 1 initState.sum) (initState.samples + 1) ≠ none ∧
    dbOfSum cfgThresh (accumSum cfgThresh 0 1 1 initState.sum) (initState.samples + 1) ≠ some ⊤ ∧
    (∃ r : ℝ, dbOfSum cfgThresh (accumSum cfgThresh 0 1 1 initState.sum)
      (initState.samples + 1) = some ((r : ℝ) : EReal)) := by
  obtain ⟨hdb, hno, hnf⟩ := silent_block_guards cfgThresh 1
  have hd : (readMicrophoneData cfgThresh 0 1 1 initState).2 =
      some (dbOfSum cfgThresh (accumSum cfgThresh 0 1 1 initState.sum)
        (initState.samples + 1)) := by
    rw [readMicrophoneData_of_le (by decide)]
  have h := emitted_value_never_nan cfgThresh 0 1 1 initState _
    (by norm_num [cfgThresh]) le_rfl (by norm_num)
    (by norm_num [cfgThresh]) (by norm_num [cfgThresh]) (by decide) hd
  have hpos : 0 < accumSum cfgThresh 0 1 1 initState.sum := by
    rw [accumSum, clampedSum_of_noise hno hnf,
      show cfgThresh.micNoiseDb = (30 : ℝ) from rfl]
    norm_num
  exact ⟨h.1, h.2.1, h.2.2 hpos⟩

end NoiseMeter
